import Mathlib

/-!
Shallow embedding of `distmat/wishart.go` from `autom8ter/gonum`.

The Wishart distribution over d×d symmetric positive-definite matrices is
embedded over `Matrix (Fin d) (Fin d) ℝ`.  Go `float64` arithmetic is
modelled by real arithmetic; the IEEE value `-Inf` that `LogProbSym`
returns for non-positive-definite inputs is modelled by `⊥ : EReal`.
Go panics are modelled by `Except.error` with a `GoPanic` code; the
`(nil, false)` return of `NewWishart` is modelled by `Except.ok none`.

The linear-algebra collaborators (`mat64.Cholesky`, `mathext.MvLgamma`,
`distuv.Normal`, `distuv.ChiSquared`) are not part of this repository;
they are modelled from the spec's collaborator contracts (§6) as noted on
each definition.
-/

open scoped Classical

namespace GonumWishart

noncomputable section

open Matrix

/-- Square real matrices of order `d`, the carrier for `mat64.SymDense`,
`mat64.TriDense` and `mat64.Dense` values of order `d`. -/
abbrev Mat (d : ℕ) := Matrix (Fin d) (Fin d) ℝ

/-- Modelled from the spec: `mat64.Cholesky` stores the upper-triangular
factor `U` of a factorization `A = UᵀU`.  `SetFromU` is trusted and
unchecked, so the structure carries no invariant. -/
structure Cholesky (d : ℕ) where
  u : Mat d

/-- The matrix represented by a Cholesky factorization object: `UᵀU`.
This is what `mat64.SymDense.FromCholesky` reconstructs. -/
def cholMat {d : ℕ} (c : Cholesky d) : Mat d := c.uᵀ * c.u

/-- Modelled from the spec: `mat64.Cholesky.LogDet` returns the
log-determinant as twice the sum of the logs of the diagonal of `U`. -/
def cholLogDet {d : ℕ} (c : Cholesky d) : ℝ :=
  2 * ∑ i, Real.log (c.u i i)

/-- Modelled from the spec: `mat64.Dense.SolveCholesky (chol, b)` solves
`A · Y = b` for the matrix `A` represented by `chol`; the collaborator
contract allows failure, which happens exactly when `A` is singular. -/
def solveCholesky {d : ℕ} (c : Cholesky d) (b : Mat d) : Option (Mat d) :=
  if IsUnit (cholMat c).det then some ((cholMat c)⁻¹ * b) else none

/-- Upper-triangularity: all entries strictly below the diagonal vanish. -/
def UpperTri {d : ℕ} (m : Mat d) : Prop :=
  ∀ i j : Fin d, (j : ℕ) < (i : ℕ) → m i j = 0

/-- `u` is the Cholesky factor of `a`: upper triangular, positive
diagonal, and `uᵀu = a`. -/
def cholFactorOf {d : ℕ} (a u : Mat d) : Prop :=
  UpperTri u ∧ (∀ i, 0 < u i i) ∧ uᵀ * u = a

/-- `a` admits a Cholesky factorization, i.e. the factorization
collaborator succeeds on `a`. -/
def Factorable {d : ℕ} (a : Mat d) : Prop :=
  ∃ u, cholFactorOf a u

/-- Modelled from the spec: `mat64.Cholesky.Factorize` succeeds exactly on
positive-definite input, in which case it stores the upper factor. -/
def Factorize {d : ℕ} (a : Mat d) : Option (Cholesky d) :=
  if h : Factorable a then some ⟨h.choose⟩ else none

/-- Modelled from the spec: `mathext.MvLgamma (a, dim)`, the multivariate
log-gamma function appearing in the Wishart normalization constant. -/
def mvLgamma (a : ℝ) (dim : ℕ) : ℝ :=
  (dim * (dim - 1) : ℝ) / 4 * Real.log Real.pi +
    ∑ j ∈ Finset.range dim, Real.log (Real.Gamma (a - j / 2))

/-- `math.Exp` extended to `EReal` values: `exp (-∞) = 0`, matching the
IEEE behaviour that `ProbSym` relies on for zero-probability inputs. -/
def expE (e : EReal) : EReal :=
  if e = ⊥ then 0 else if e = ⊤ then ⊤ else ((Real.exp e.toReal : ℝ) : EReal)

/-- The two panic classes `wishart.go` can raise: the `nu <= dim-1`
construction panic and the dimension-mismatch panics. -/
inductive GoPanic where
  | invalidParameter
  | dimensionMismatch

/-- The `Wishart` struct of `wishart.go`.  The order `dim` is carried as
the type index `d`; the `*rand.Rand` source is external state threaded
through sampling separately; `once`/`v` (the `sync.Once`-guarded lazy
dense reconstruction of V) is modelled by the `Option` field `v`. -/
structure Wishart (d : ℕ) where
  nu : ℝ
  cholv : Cholesky d
  logdetv : ℝ
  upper : Mat d
  v : Option (Mat d)

/-- `NewWishart`: panics when `nu <= dim-1`, returns `(nil, false)` when
the Cholesky factorization of `v` fails, and otherwise stores `nu`, the
factorization, its log-determinant and the extracted upper factor. -/
def NewWishart {d : ℕ} (v : Mat d) (nu : ℝ) : Except GoPanic (Option (Wishart d)) :=
  if nu ≤ (d : ℝ) - 1 then Except.error GoPanic.invalidParameter
  else
    match Factorize v with
    | none => Except.ok none
    | some chol =>
        Except.ok (some { nu := nu, cholv := chol, logdetv := cholLogDet chol,
                          upper := chol.u, v := none })

/-- `setV`: the `sync.Once`-guarded one-time fill of the dense
reconstruction `V = UᵀU`; modelled as a state transformer on the struct. -/
def setV {d : ℕ} (w : Wishart d) : Wishart d :=
  match w.v with
  | some _ => w
  | none => { w with v := some (cholMat w.cholv) }

/-- Dimension-cast between equal orders (computationally the identity);
models passing a dynamically-sized `mat64` value where order `d` is
required after the dimension check has passed. -/
def castMat {n d : ℕ} (h : n = d) (x : Mat n) : Mat d :=
  fun i j => x (Fin.cast h.symm i) (Fin.cast h.symm j)

/-- `MeanSym`: allocates when the buffer is `nil`, panics on a buffer of
the wrong order, and otherwise fills the cache via `setV` and returns
`nu * V` (scaling the cached dense reconstruction).  The returned pair is
(result, post-state of the struct). -/
def MeanSym {d : ℕ} (w : Wishart d) (x : Option ((n : ℕ) × Mat n)) :
    Except GoPanic (Mat d) × Wishart d :=
  match x with
  | none =>
      let w' := setV w
      (Except.ok (w.nu • w'.v.getD 0), w')
  | some p =>
      if p.1 = d then
        let w' := setV w
        (Except.ok (w.nu • w'.v.getD 0), w')
      else (Except.error GoPanic.dimensionMismatch, w)

/-- The shared helper `logProbSymChol`: log-determinant of X from its
factor, `tr(V⁻¹X)` via an SPD solve against the cached factorization of
V (never forming `V⁻¹` as a standalone inverse of an unfactored matrix),
`-∞` if the solve fails, and otherwise the closed-form log-density. -/
def logProbSymChol {d : ℕ} (w : Wishart d) (cholX : Cholesky d) : EReal :=
  match solveCholesky w.cholv cholX.uᵀ with
  | none => (⊥ : EReal)
  | some y =>
      ((0.5 * ((w.nu - d - 1) * cholLogDet cholX - Matrix.trace (y * cholX.u)
          - w.nu * d * Real.log 2 - w.nu * w.logdetv)
        - mvLgamma (0.5 * w.nu) d : ℝ) : EReal)

/-- `LogProbSym`: panics on a dimension mismatch, returns `-∞` when the
Cholesky factorization of the input fails, and otherwise delegates to
`logProbSymChol`. -/
def LogProbSym {d : ℕ} (w : Wishart d) {n : ℕ} (x : Mat n) : Except GoPanic EReal :=
  if h : n = d then
    match Factorize (castMat h x) with
    | none => Except.ok (⊥ : EReal)
    | some chol => Except.ok (logProbSymChol w chol)
  else Except.error GoPanic.dimensionMismatch

/-- `LogProbSymChol`: the factorization-accepting entry point; checks the
order of the factorization and delegates to the shared helper. -/
def LogProbSymChol {d : ℕ} (w : Wishart d) {n : ℕ} (cholX : Cholesky n) :
    Except GoPanic EReal :=
  if h : n = d then Except.ok (logProbSymChol w ⟨castMat h cholX.u⟩)
  else Except.error GoPanic.dimensionMismatch

/-- `ProbSym`: `math.Exp` of `LogProbSym` (a panic propagates). -/
def ProbSym {d : ℕ} (w : Wishart d) {n : ℕ} (x : Mat n) : Except GoPanic EReal :=
  (LogProbSym w x).map expE

/-- Point update of a `ℕ`-indexed table, modelling `TriDense.SetTri`. -/
def setEntryF (f : ℕ → ℕ → ℝ) (i j : ℕ) (v : ℝ) : ℕ → ℕ → ℝ :=
  fun a b => if a = i ∧ b = j then v else f a b

/-- `RandChol`: the Bartlett decomposition.  The `*rand.Rand` source is
modelled as a position `s` into two abstract draw oracles, `chi k p` (a
`distuv.ChiSquared{K: k}` draw at source position `p`) and `gauss p` (a
standard `distuv.Normal` draw at position `p`); each `Rand()` call
consumes one position.  The two Go loops are the two folds; the result is
`A · U_V` packaged directly via `SetFromU` with its advanced position. -/
def RandChol (chi : ℝ → ℕ → ℝ) (gauss : ℕ → ℝ) {d : ℕ} (w : Wishart d) (s : ℕ) :
    Cholesky d × ℕ :=
  let t0 : ℕ → ℕ → ℝ := fun _ _ => 0
  let p1 := (List.range d).foldl
    (fun acc i => (setEntryF acc.1 i i (Real.sqrt (chi (w.nu - i) acc.2)), acc.2 + 1))
    (t0, s)
  let p2 := (List.range d).foldl
    (fun acc i => (List.range' (i + 1) (d - (i + 1))).foldl
      (fun acc2 j => (setEntryF acc2.1 i j (gauss acc2.2), acc2.2 + 1)) acc)
    p1
  let t : Mat d := Matrix.of fun i j : Fin d => p2.1 i j
  (⟨t * w.upper⟩, p2.2)

/-- `RandSym`: samples a Cholesky factor with `RandChol` and reconstructs
the dense symmetric matrix `X = U_Xᵀ U_X` from it. -/
def RandSym (chi : ℝ → ℕ → ℝ) (gauss : ℕ → ℝ) {d : ℕ} (w : Wishart d) (s : ℕ) :
    Mat d × ℕ :=
  let r := RandChol chi gauss w s
  (cholMat r.1, r.2)

/-- Positions already consumed by the off-diagonal loop before row `m`
starts: row `a` draws `d - (a+1)` normals. -/
def offBase (d m : ℕ) : ℕ := ∑ a ∈ Finset.range m, (d - (a + 1))

/-- The spec-side description of the Bartlett matrix `A`: diagonal entries
are square roots of chi-squared draws with `nu - i` degrees of freedom
(taken at the first `d` source positions, in row order), strict upper
entries are standard normal draws (taken at the following positions in
row-major order), and the strict lower triangle is zero. -/
def bartlettA (chi : ℝ → ℕ → ℝ) (gauss : ℕ → ℝ) {d : ℕ} (w : Wishart d) (s : ℕ) :
    Mat d :=
  Matrix.of fun i j : Fin d =>
    if (i : ℕ) = (j : ℕ) then Real.sqrt (chi (w.nu - (i : ℕ)) (s + i))
    else if (i : ℕ) < (j : ℕ) then gauss (s + d + offBase d i + ((j : ℕ) - ((i : ℕ) + 1)))
    else 0

/-- The spec's closed-form log-density
`0.5 ((ν−d−1) log|X| − tr(V⁻¹X) − νd ln 2 − ν log|V|) − mvLgamma(d, ν/2)`,
written against the matrix `X` itself (with the stored `logdetv`). -/
def wishartLogPDF {d : ℕ} (w : Wishart d) (x : Mat d) : ℝ :=
  0.5 * ((w.nu - d - 1) * Real.log x.det - Matrix.trace ((cholMat w.cholv)⁻¹ * x)
      - w.nu * d * Real.log 2 - w.nu * w.logdetv)
    - mvLgamma (0.5 * w.nu) d

/-! ### Basic unfolding lemmas -/

lemma logProbSym_at_dim {d : ℕ} (w : Wishart d) (x : Mat d) :
    LogProbSym w x =
      match Factorize x with
      | none => Except.ok (⊥ : EReal)
      | some chol => Except.ok (logProbSymChol w chol) := by
  unfold LogProbSym
  rw [dif_pos rfl]
  rfl

lemma logProbSymChol_at_dim {d : ℕ} (w : Wishart d) (c : Cholesky d) :
    LogProbSymChol w c = Except.ok (logProbSymChol w c) := by
  unfold LogProbSymChol
  rw [dif_pos rfl]
  rfl

lemma setV_v {d : ℕ} (w : Wishart d)
    (hc : w.v = none ∨ w.v = some (cholMat w.cholv)) :
    (setV w).v = some (cholMat w.cholv) := by
  unfold setV
  rcases hc with h | h
  · rw [h]
  · rw [h]
    exact h

lemma solveCholesky_pos {d : ℕ} (c : Cholesky d) (b : Mat d)
    (h : IsUnit (cholMat c).det) :
    solveCholesky c b = some ((cholMat c)⁻¹ * b) := by
  unfold solveCholesky
  rw [if_pos h]

lemma solveCholesky_neg {d : ℕ} (c : Cholesky d) (b : Mat d)
    (h : ¬IsUnit (cholMat c).det) :
    solveCholesky c b = none := by
  unfold solveCholesky
  rw [if_neg h]

lemma logProbSymChol_some {d : ℕ} (w : Wishart d) (c : Cholesky d) (y : Mat d)
    (h : solveCholesky w.cholv c.uᵀ = some y) :
    logProbSymChol w c =
      ((0.5 * ((w.nu - d - 1) * cholLogDet c - Matrix.trace (y * c.u)
          - w.nu * d * Real.log 2 - w.nu * w.logdetv)
        - mvLgamma (0.5 * w.nu) d : ℝ) : EReal) := by
  unfold logProbSymChol
  rw [h]

lemma logProbSymChol_none {d : ℕ} (w : Wishart d) (c : Cholesky d)
    (h : solveCholesky w.cholv c.uᵀ = none) :
    logProbSymChol w c = (⊥ : EReal) := by
  unfold logProbSymChol
  rw [h]

lemma logProbSym_not_factorable {d : ℕ} (w : Wishart d) (x : Mat d)
    (hx : ¬Factorable x) : LogProbSym w x = Except.ok (⊥ : EReal) := by
  rw [logProbSym_at_dim]
  unfold Factorize
  rw [dif_neg hx]

/-- The code's log-determinant (twice the sum of logs of the factor's
diagonal) equals the log of the determinant of the represented matrix. -/
lemma cholLogDet_eq_log_det {d : ℕ} (c : Cholesky d)
    (hu : UpperTri c.u) (hpos : ∀ i, 0 < c.u i i) :
    cholLogDet c = Real.log (cholMat c).det := by
  have hbt : c.u.BlockTriangular id := fun i j hij => hu i j hij
  have hdetu : c.u.det = ∏ i, c.u i i := Matrix.det_of_upperTriangular hbt
  have hpne : (∏ i, c.u i i) ≠ 0 := ne_of_gt (Finset.prod_pos fun i _ => hpos i)
  have hm : (cholMat c).det = (∏ i, c.u i i) * (∏ i, c.u i i) := by
    rw [cholMat, Matrix.det_mul, Matrix.det_transpose, hdetu]
  rw [hm, Real.log_mul hpne hpne, cholLogDet,
    Real.log_prod _ _ fun i _ => ne_of_gt (hpos i)]
  ring

/-- Evaluating the shared helper on a genuine factor of an SPD matrix
yields the closed-form log-density of the represented matrix. -/
lemma logProbSymChol_eval {d : ℕ} (w : Wishart d) (c : Cholesky d)
    (hsolve : IsUnit (cholMat w.cholv).det)
    (hu : UpperTri c.u) (hpos : ∀ i, 0 < c.u i i) :
    logProbSymChol w c = ((wishartLogPDF w (cholMat c) : ℝ) : EReal) := by
  rw [logProbSymChol_some w c _ (solveCholesky_pos _ _ hsolve)]
  have htr : Matrix.trace ((cholMat w.cholv)⁻¹ * c.uᵀ * c.u)
      = Matrix.trace ((cholMat w.cholv)⁻¹ * cholMat c) := by
    rw [Matrix.mul_assoc]
    rfl
  rw [htr, cholLogDet_eq_log_det c hu hpos]
  rfl

/-- A genuine Cholesky factor represents a matrix with invertible
determinant, so the SPD solve against it succeeds. -/
lemma cholFactor_det_isUnit {d : ℕ} (u : Mat d)
    (hu : UpperTri u) (hpos : ∀ i, 0 < u i i) :
    IsUnit (uᵀ * u).det := by
  rw [Matrix.det_mul, Matrix.det_transpose,
    Matrix.det_of_upperTriangular (fun i j hij => hu i j hij)]
  have hp : (0 : ℝ) < ∏ i, u i i := Finset.prod_pos fun i _ => hpos i
  exact isUnit_iff_ne_zero.mpr (ne_of_gt (mul_pos hp hp))

lemma expE_bot : expE (⊥ : EReal) = 0 := by
  unfold expE
  rw [if_pos rfl]

lemma expE_nonneg (e : EReal) : 0 ≤ expE e := by
  unfold expE
  split
  · exact le_refl 0
  · split
    · exact le_top
    · exact EReal.coe_nonneg.mpr (Real.exp_nonneg _)

/-! ### Concrete objects for witnesses -/

/-- The identity matrix is upper triangular. -/
lemma upperTri_one {d : ℕ} : UpperTri (1 : Mat d) := by
  intro i j hij
  apply Matrix.one_apply_ne
  intro h
  rw [h] at hij
  omega

lemma oneDiag_pos {d : ℕ} : ∀ i : Fin d, 0 < (1 : Mat d) i i := fun i => by simp

/-- The identity matrix is its own Cholesky factor. -/
lemma fact_one {d : ℕ} : Factorable (1 : Mat d) :=
  ⟨1, upperTri_one, oneDiag_pos, by simp⟩

/-- A concrete order-1 distribution: `nu = 3`, `V = [[1]]`. -/
def wUnit : Wishart 1 :=
  { nu := 3, cholv := ⟨1⟩, logdetv := 0, upper := 1, v := none }

/-- A concrete order-1 struct whose stored factor is singular (only
producible through the unchecked `SetFromU` path, but the solve
collaborator's contract must still be honoured on it). -/
def wZero : Wishart 1 :=
  { nu := 3, cholv := ⟨0⟩, logdetv := 0, upper := 0, v := none }

lemma wUnit_solve_ok : IsUnit (cholMat wUnit.cholv).det := by
  have h : cholMat wUnit.cholv = (1 : Mat 1) := by
    simp [cholMat, wUnit]
  rw [h, Matrix.det_one]
  exact isUnit_one

lemma wZero_solve_bad : ¬IsUnit (cholMat wZero.cholv).det := by
  have h : cholMat wZero.cholv = (0 : Mat 1) := by
    simp [cholMat, wZero]
  rw [h]
  simp [Matrix.det_fin_one]

/-- `[[-1]]` has no Cholesky factorization. -/
lemma negOne_not_factorable : ¬Factorable (Matrix.of ![![(-1 : ℝ)]]) := by
  rintro ⟨u, _, hpos, heq⟩
  have h := congrFun (congrFun heq 0) 0
  simp [Matrix.mul_apply, Fin.sum_univ_one, Matrix.transpose_apply] at h
  nlinarith [hpos 0]

/-! ### C4: construction -/

/-- C4: `NewWishart` panics with `InvalidParameter` when `nu ≤ d - 1`
(before any factorization); when `nu > d - 1` but `V` has no Cholesky
factorization it returns `(nil, false)`; on success it stores `nu`, the
factorization of `V`, its log-determinant and the extracted upper factor
(the order `d` is carried by the type index). -/
theorem newWishart_spec {d : ℕ} (v : Mat d) (nu : ℝ) :
    (nu ≤ (d : ℝ) - 1 → NewWishart v nu = Except.error GoPanic.invalidParameter)
    ∧ ((d : ℝ) - 1 < nu → ¬Factorable v → NewWishart v nu = Except.ok none)
    ∧ ((d : ℝ) - 1 < nu → Factorable v → ∃ w : Wishart d,
        NewWishart v nu = Except.ok (some w) ∧ w.nu = nu
        ∧ w.logdetv = cholLogDet w.cholv ∧ w.upper = w.cholv.u
        ∧ cholFactorOf v w.cholv.u ∧ w.v = none) := by
  refine ⟨fun h => ?_, fun h1 h2 => ?_, fun h1 h => ?_⟩
  · unfold NewWishart
    rw [if_pos h]
  · unfold NewWishart Factorize
    rw [if_neg (not_le.mpr h1), dif_neg h2]
  · refine ⟨⟨nu, ⟨h.choose⟩, cholLogDet ⟨h.choose⟩, h.choose, none⟩,
      ?_, rfl, rfl, rfl, h.choose_spec, rfl⟩
    unfold NewWishart Factorize
    rw [if_neg (not_le.mpr h1), dif_pos h]

/-- C4 witness: the three branches at `d = 1`, `V = 1` (and a non-PD `V`
for the middle branch, handled at `d = 2` in the stand-alone lemma
below); the failure branch is exercised with `nu = 0 ≤ 0`. -/
theorem newWishart_spec_witness :
    NewWishart (1 : Mat 1) 0 = Except.error GoPanic.invalidParameter
    ∧ NewWishart (Matrix.of ![![(1 : ℝ), 2], ![2, 1]]) 2 = Except.ok none
    ∧ ∃ w : Wishart 1, NewWishart (1 : Mat 1) 1 = Except.ok (some w) ∧ w.nu = 1
        ∧ w.logdetv = cholLogDet w.cholv ∧ w.upper = w.cholv.u
        ∧ cholFactorOf (1 : Mat 1) w.cholv.u ∧ w.v = none := by
  refine ⟨(newWishart_spec (1 : Mat 1) 0).1 (by norm_num),
    (newWishart_spec _ 2).2.1 (by norm_num) ?_,
    (newWishart_spec (1 : Mat 1) 1).2.2 (by norm_num) fact_one⟩
  rintro ⟨u, hu, hpos, heq⟩
  have h10 : u 1 0 = 0 := hu 1 0 (by norm_num)
  have h00 : u 0 0 * u 0 0 = 1 := by
    have := congrFun (congrFun heq 0) 0
    simpa [Matrix.mul_apply, Fin.sum_univ_two, Matrix.transpose_apply, h10] using this
  have h01 : u 0 0 * u 0 1 = 2 := by
    have := congrFun (congrFun heq 0) 1
    simpa [Matrix.mul_apply, Fin.sum_univ_two, Matrix.transpose_apply, h10] using this
  have h11 : u 0 1 * u 0 1 + u 1 1 * u 1 1 = 1 := by
    have := congrFun (congrFun heq 1) 1
    simpa [Matrix.mul_apply, Fin.sum_univ_two, Matrix.transpose_apply, h10] using this
  nlinarith [sq_nonneg (u 1 1), sq_nonneg (u 0 1), h00, h01, h11]

/-! ### C9: the chi-squared degrees of freedom stay positive -/

/-- C9: any distribution obtained from a successful `NewWishart` call has
`nu > d - 1`, hence every degrees-of-freedom parameter `nu - i`
(`0 ≤ i ≤ d-1`) that `RandChol` hands to the chi-squared sampler is
strictly positive. -/
theorem chiSquared_dof_pos {d : ℕ} (v : Mat d) (nu : ℝ) (w : Wishart d)
    (h : NewWishart v nu = Except.ok (some w)) :
    ∀ i : Fin d, 0 < w.nu - (i : ℕ) := by
  intro i
  unfold NewWishart at h
  by_cases hle : nu ≤ (d : ℝ) - 1
  · rw [if_pos hle] at h
    exact absurd h (by simp)
  · rw [if_neg hle] at h
    push_neg at hle
    cases hf : Factorize v with
    | none =>
        rw [hf] at h
        simp at h
    | some c =>
        rw [hf] at h
        simp only [Except.ok.injEq, Option.some.injEq] at h
        have hnu : w.nu = nu := by rw [← h]
        have hi : ((i : ℕ) : ℝ) + 1 ≤ (d : ℝ) := by exact_mod_cast i.isLt
        rw [hnu]
        linarith

/-- C9 witness: a concrete successful construction at `d = 1`, `V = 1`,
`nu = 1`, for which the theorem yields `0 < w.nu - 0`. -/
theorem chiSquared_dof_pos_witness :
    ∃ w : Wishart 1, NewWishart (1 : Mat 1) 1 = Except.ok (some w)
      ∧ ∀ i : Fin 1, 0 < w.nu - (i : ℕ) := by
  have hf : Factorable (1 : Mat 1) := fact_one
  refine ⟨⟨1, ⟨hf.choose⟩, cholLogDet ⟨hf.choose⟩, hf.choose, none⟩, ?_⟩
  have h : NewWishart (1 : Mat 1) 1 = Except.ok (some
      ⟨1, ⟨hf.choose⟩, cholLogDet ⟨hf.choose⟩, hf.choose, none⟩) := by
    unfold NewWishart Factorize
    rw [if_neg (by norm_num), dif_pos hf]
  exact ⟨h, chiSquared_dof_pos _ _ _ h⟩

/-! ### C8: dimension mismatches panic -/

/-- C8: `LogProbSym`, `LogProbSymChol` and `MeanSym` each panic with the
dimension-mismatch panic on an argument whose order differs from `d`
(`MeanSym` without touching the cache), while a non-positive-definite
input of the correct order is not a panic but the `-∞` return. -/
theorem dim_mismatch_panics {d : ℕ} (w : Wishart d) :
    (∀ (n : ℕ) (x : Mat n), n ≠ d →
        LogProbSym w x = Except.error GoPanic.dimensionMismatch)
    ∧ (∀ (n : ℕ) (c : Cholesky n), n ≠ d →
        LogProbSymChol w c = Except.error GoPanic.dimensionMismatch)
    ∧ (∀ (n : ℕ) (b : Mat n), n ≠ d →
        MeanSym w (some ⟨n, b⟩) = (Except.error GoPanic.dimensionMismatch, w))
    ∧ (∀ x : Mat d, ¬Factorable x → LogProbSym w x = Except.ok (⊥ : EReal)) := by
  refine ⟨fun n x hn => ?_, fun n c hn => ?_, fun n b hn => ?_, fun x hx => ?_⟩
  · unfold LogProbSym
    rw [dif_neg hn]
  · unfold LogProbSymChol
    rw [dif_neg hn]
  · simp [MeanSym, hn]
  · rw [logProbSym_at_dim]
    unfold Factorize
    rw [dif_neg hx]

/-- C8 witness: a `Wishart 1` hit with order-2 arguments, and the `-∞`
(not panic) return on the order-1 non-positive-definite input `[[-1]]`. -/
theorem dim_mismatch_panics_witness :
    LogProbSym wUnit (1 : Mat 2) = Except.error GoPanic.dimensionMismatch
    ∧ LogProbSymChol wUnit (⟨1⟩ : Cholesky 2) = Except.error GoPanic.dimensionMismatch
    ∧ MeanSym wUnit (some ⟨2, (1 : Mat 2)⟩) = (Except.error GoPanic.dimensionMismatch, wUnit)
    ∧ LogProbSym wUnit (Matrix.of ![![(-1 : ℝ)]]) = Except.ok (⊥ : EReal) :=
  ⟨(dim_mismatch_panics wUnit).1 2 _ (by norm_num),
   (dim_mismatch_panics wUnit).2.1 2 _ (by norm_num),
   (dim_mismatch_panics wUnit).2.2.1 2 _ (by norm_num),
   (dim_mismatch_panics wUnit).2.2.2 _ negOne_not_factorable⟩

/-! ### C10: frame conditions -/

/-- C10: the only state change any operation performs is the one-time
fill of the cache `v`: `setV` preserves `nu`, `cholv`, `logdetv` and
`upper`, fills `v` exactly once (it is the identity when the cache is
already set, and idempotent), and `MeanSym`'s post-state is either
`setV w` or `w` unchanged (the mismatch panic path); all other
operations are state-free functions of the struct. -/
theorem state_frame {d : ℕ} (w : Wishart d) :
    (setV w).nu = w.nu ∧ (setV w).cholv = w.cholv ∧ (setV w).logdetv = w.logdetv
    ∧ (setV w).upper = w.upper
    ∧ (w.v = none → (setV w).v = some (cholMat w.cholv))
    ∧ (∀ m, w.v = some m → setV w = w)
    ∧ setV (setV w) = setV w
    ∧ (∀ x, (MeanSym w x).2 = setV w ∨ (MeanSym w x).2 = w) := by
  refine ⟨?_, ?_, ?_, ?_, fun h => ?_, fun m h => ?_, ?_, fun x => ?_⟩
  · cases hv : w.v <;> simp [setV, hv]
  · cases hv : w.v <;> simp [setV, hv]
  · cases hv : w.v <;> simp [setV, hv]
  · cases hv : w.v <;> simp [setV, hv]
  · simp [setV, h]
  · simp [setV, h]
  · cases hv : w.v <;> simp [setV, hv]
  · cases x with
    | none => left; rfl
    | some p =>
        by_cases hp : p.1 = d
        · left
          simp [MeanSym, hp]
        · right
          simp [MeanSym, hp]

/-- C10 witness: the frame conditions instantiated on a concrete struct
with an empty cache, discharging the `v = none` and `v = some` guards. -/
theorem state_frame_witness :
    (setV wUnit).nu = wUnit.nu
    ∧ (setV wUnit).v = some (cholMat wUnit.cholv)
    ∧ setV (setV wUnit) = setV wUnit
    ∧ ((MeanSym wUnit none).2 = setV wUnit ∨ (MeanSym wUnit none).2 = wUnit) :=
  ⟨(state_frame wUnit).1,
   (state_frame wUnit).2.2.2.2.1 rfl,
   (state_frame (setV wUnit)).2.2.2.2.2.1 (cholMat wUnit.cholv)
     ((state_frame wUnit).2.2.2.2.1 rfl),
   (state_frame wUnit).2.2.2.2.2.2.2 none⟩

/-! ### C1: the closed-form log-density -/

/-- C1: whenever the SPD solve against V's cached factorization succeeds,
the shared helper `logProbSymChol` — and hence `LogProbSym` on any
symmetric positive-definite input of order `d` — returns exactly
`0.5 ((ν−d−1) log|X| − tr(V⁻¹X) − νd ln 2 − ν logdetv) − mvLgamma(d, ν/2)`,
with `log|X|` obtained from X's Cholesky factor and `tr(V⁻¹X)` obtained
from the solve result times the factor, never from a standalone `V⁻¹`. -/
theorem logProbSym_formula {d : ℕ} (w : Wishart d)
    (hwu : UpperTri w.cholv.u) (hwpos : ∀ i, 0 < w.cholv.u i i) :
    (∀ c : Cholesky d, UpperTri c.u → (∀ i, 0 < c.u i i) →
        logProbSymChol w c = ((wishartLogPDF w (cholMat c) : ℝ) : EReal))
    ∧ ∀ x : Mat d, Factorable x →
        LogProbSym w x = Except.ok ((wishartLogPDF w x : ℝ) : EReal) := by
  have hsolve : IsUnit (cholMat w.cholv).det := cholFactor_det_isUnit _ hwu hwpos
  refine ⟨fun c hu hpos => logProbSymChol_eval w c hsolve hu hpos, fun x hx => ?_⟩
  rw [logProbSym_at_dim]
  unfold Factorize
  rw [dif_pos hx]
  show Except.ok (logProbSymChol w ⟨hx.choose⟩) = _
  obtain ⟨hu, hpos, heq⟩ := hx.choose_spec
  rw [logProbSymChol_eval w ⟨hx.choose⟩ hsolve hu hpos]
  have hcm : cholMat ⟨hx.choose⟩ = x := heq
  rw [hcm]

/-- C1 witness: the formula evaluated on the concrete distribution
`wUnit` at `X = [[1]]` and its factor. -/
theorem logProbSym_formula_witness :
    logProbSymChol wUnit ⟨1⟩ = ((wishartLogPDF wUnit (cholMat ⟨1⟩) : ℝ) : EReal)
    ∧ LogProbSym wUnit (1 : Mat 1) = Except.ok ((wishartLogPDF wUnit 1 : ℝ) : EReal) :=
  ⟨(logProbSym_formula wUnit upperTri_one oneDiag_pos).1 ⟨1⟩ upperTri_one oneDiag_pos,
   (logProbSym_formula wUnit upperTri_one oneDiag_pos).2 1 fact_one⟩

/-! ### C5: non-positive-definite inputs give `-∞`, not an error -/

/-- C5: `LogProbSym` returns `-∞` (as a value, not a panic) when the
input of order `d` has no Cholesky factorization, and `logProbSymChol`
returns `-∞` when the SPD solve against V's cached factorization fails. -/
theorem logProbSym_notPD_bot {d : ℕ} (w : Wishart d) :
    (∀ x : Mat d, ¬Factorable x → LogProbSym w x = Except.ok (⊥ : EReal))
    ∧ (¬IsUnit (cholMat w.cholv).det →
        ∀ c : Cholesky d, logProbSymChol w c = (⊥ : EReal)) :=
  ⟨fun x hx => logProbSym_not_factorable w x hx,
   fun hs c => logProbSymChol_none w c (solveCholesky_neg _ _ hs)⟩

/-- C5 witness: the non-PD input `[[-1]]` on `wUnit`, and the solve
failure on the struct `wZero` carrying a singular factor. -/
theorem logProbSym_notPD_bot_witness :
    LogProbSym wUnit (Matrix.of ![![(-1 : ℝ)]]) = Except.ok (⊥ : EReal)
    ∧ logProbSymChol wZero ⟨1⟩ = (⊥ : EReal) :=
  ⟨(logProbSym_notPD_bot wUnit).1 _ negOne_not_factorable,
   (logProbSym_notPD_bot wZero).2 wZero_solve_bad ⟨1⟩⟩

/-! ### C6: `ProbSym` is the exponential of `LogProbSym` -/

lemma logProbSym_isOk {d : ℕ} (w : Wishart d) (x : Mat d) :
    ∃ v, LogProbSym w x = Except.ok v := by
  rw [logProbSym_at_dim]
  cases Factorize x <;> exact ⟨_, rfl⟩

/-- C6: on inputs of the correct order, `ProbSym` is `exp` of
`LogProbSym`, therefore nonnegative, and exactly `0` on an input with no
Cholesky factorization (`exp` of `-∞`). -/
theorem probSym_exp {d : ℕ} (w : Wishart d) (x : Mat d) :
    ProbSym w x = (LogProbSym w x).map expE
    ∧ (∀ p : EReal, ProbSym w x = Except.ok p → 0 ≤ p)
    ∧ (¬Factorable x → ProbSym w x = Except.ok (0 : EReal)) := by
  refine ⟨rfl, fun p hp => ?_, fun hx => ?_⟩
  · obtain ⟨v, hv⟩ := logProbSym_isOk w x
    rw [ProbSym, hv] at hp
    simp only [Except.map, Except.ok.injEq] at hp
    rw [← hp]
    exact expE_nonneg v
  · rw [ProbSym, logProbSym_not_factorable w x hx]
    simp only [Except.map]
    rw [expE_bot]

/-- C6 witness: `ProbSym` of the non-PD `[[-1]]` on `wUnit` is exactly
`0`, and that `0` is nonnegative. -/
theorem probSym_exp_witness :
    ProbSym wUnit (Matrix.of ![![(-1 : ℝ)]]) = Except.ok (0 : EReal)
    ∧ (0 : EReal) ≤ 0 := by
  have h := probSym_exp wUnit (Matrix.of ![![(-1 : ℝ)]])
  have h3 := h.2.2 negOne_not_factorable
  exact ⟨h3, h.2.1 0 h3⟩

/-! ### C7: the two density entry points agree -/

/-- C7: for an SPD `X` of order `d` and any Cholesky factorization of
that same `X`, the factorization-accepting entry point returns exactly
what `LogProbSym` returns on `X`. -/
theorem logProbSymChol_agrees {d : ℕ} (w : Wishart d) (x : Mat d)
    (cx : Cholesky d) (hcx : cholFactorOf x cx.u) :
    LogProbSymChol w cx = LogProbSym w x := by
  obtain ⟨hu, hpos, heq⟩ := hcx
  have hx : Factorable x := ⟨cx.u, hu, hpos, heq⟩
  rw [logProbSymChol_at_dim, logProbSym_at_dim]
  unfold Factorize
  rw [dif_pos hx]
  show Except.ok (logProbSymChol w cx) = Except.ok (logProbSymChol w ⟨hx.choose⟩)
  obtain ⟨hu2, hpos2, heq2⟩ := hx.choose_spec
  by_cases hs : IsUnit (cholMat w.cholv).det
  · rw [logProbSymChol_eval w cx hs hu hpos,
      logProbSymChol_eval w ⟨hx.choose⟩ hs hu2 hpos2]
    have e1 : cholMat cx = x := heq
    have e2 : cholMat ⟨hx.choose⟩ = x := heq2
    rw [e1, e2]
  · rw [logProbSymChol_none w cx (solveCholesky_neg _ _ hs),
      logProbSymChol_none w _ (solveCholesky_neg _ _ hs)]

/-- C7 witness: `X = [[1]]` with its own factor `[[1]]` on `wUnit`. -/
theorem logProbSymChol_agrees_witness :
    LogProbSymChol wUnit (⟨1⟩ : Cholesky 1) = LogProbSym wUnit (1 : Mat 1) :=
  logProbSymChol_agrees wUnit 1 ⟨1⟩
    ⟨upperTri_one, fun i => by simp, by simp⟩

/-! ### C3: the mean -/

/-- C3: with a coherent cache (empty, or already holding the dense
reconstruction `V = UᵀU`), `MeanSym` returns `nu • V` both when the
caller passes no buffer (a fresh matrix is produced) and when the caller
passes a buffer of the correct order. -/
theorem meanSym_spec {d : ℕ} (w : Wishart d)
    (hc : w.v = none ∨ w.v = some (cholMat w.cholv)) :
    (MeanSym w none).1 = Except.ok (w.nu • cholMat w.cholv)
    ∧ ∀ b : Mat d, (MeanSym w (some ⟨d, b⟩)).1 = Except.ok (w.nu • cholMat w.cholv) := by
  have hv := setV_v w hc
  constructor
  · simp [MeanSym, hv]
  · intro b
    simp [MeanSym, hv]

/-- C3 witness: the mean of the concrete distribution `wUnit` (with its
empty cache) in both buffer modes. -/
theorem meanSym_spec_witness :
    (MeanSym wUnit none).1 = Except.ok (wUnit.nu • cholMat wUnit.cholv)
    ∧ (MeanSym wUnit (some ⟨1, (1 : Mat 1)⟩)).1
        = Except.ok (wUnit.nu • cholMat wUnit.cholv) :=
  ⟨(meanSym_spec wUnit (Or.inl rfl)).1, (meanSym_spec wUnit (Or.inl rfl)).2 1⟩

/-! ### C2: the Bartlett decomposition -/

lemma innerFold_snd (gauss : ℕ → ℝ) (i : ℕ) :
    ∀ (n j : ℕ) (acc : (ℕ → ℕ → ℝ) × ℕ),
      ((List.range' j n).foldl
        (fun acc2 q => (setEntryF acc2.1 i q (gauss acc2.2), acc2.2 + 1)) acc).2
      = acc.2 + n := by
  intro n
  induction n with
  | zero =>
      intro j acc
      simp
  | succ n ih =>
      intro j acc
      rw [List.range'_succ, List.foldl_cons, ih]
      omega

lemma innerFold_fst (gauss : ℕ → ℝ) (i : ℕ) :
    ∀ (n j : ℕ) (acc : (ℕ → ℕ → ℝ) × ℕ) (a b : ℕ),
      ((List.range' j n).foldl
        (fun acc2 q => (setEntryF acc2.1 i q (gauss acc2.2), acc2.2 + 1)) acc).1 a b
      = if a = i ∧ j ≤ b ∧ b < j + n then gauss (acc.2 + (b - j)) else acc.1 a b := by
  intro n
  induction n with
  | zero =>
      intro j acc a b
      rw [List.range'_zero, List.foldl_nil, if_neg]
      rintro ⟨-, h1, h2⟩
      omega
  | succ n ih =>
      intro j acc a b
      rw [List.range'_succ, List.foldl_cons, ih]
      show (if a = i ∧ j + 1 ≤ b ∧ b < j + 1 + n then gauss (acc.2 + 1 + (b - (j + 1)))
          else setEntryF acc.1 i j (gauss acc.2) a b) = _
      unfold setEntryF
      by_cases h1 : a = i ∧ j + 1 ≤ b ∧ b < j + 1 + n
      · rw [if_pos h1, if_pos ⟨h1.1, by omega, by omega⟩]
        congr 1
        omega
      · rw [if_neg h1]
        by_cases h2 : a = i ∧ b = j
        · rw [if_pos h2, if_pos ⟨h2.1, by omega, by omega⟩]
          congr 1
          omega
        · rw [if_neg h2, if_neg ?_]
          rintro ⟨ha, hb1, hb2⟩
          rcases Nat.eq_or_lt_of_le hb1 with hb | hb
          · exact h2 ⟨ha, hb.symm⟩
          · exact h1 ⟨ha, by omega, by omega⟩

lemma diagFold_snd (chi : ℝ → ℕ → ℝ) (nu : ℝ) :
    ∀ (m : ℕ) (acc : (ℕ → ℕ → ℝ) × ℕ),
      ((List.range m).foldl
        (fun acc2 k => (setEntryF acc2.1 k k (Real.sqrt (chi (nu - k) acc2.2)), acc2.2 + 1))
        acc).2
      = acc.2 + m := by
  intro m
  induction m with
  | zero =>
      intro acc
      simp
  | succ m ih =>
      intro acc
      rw [List.range_succ, List.foldl_append, List.foldl_cons, List.foldl_nil, ih]
      rfl

lemma diagFold_fst (chi : ℝ → ℕ → ℝ) (nu : ℝ) :
    ∀ (m : ℕ) (acc : (ℕ → ℕ → ℝ) × ℕ) (a b : ℕ),
      ((List.range m).foldl
        (fun acc2 k => (setEntryF acc2.1 k k (Real.sqrt (chi (nu - k) acc2.2)), acc2.2 + 1))
        acc).1 a b
      = if a = b ∧ a < m then Real.sqrt (chi (nu - a) (acc.2 + a)) else acc.1 a b := by
  intro m
  induction m with
  | zero =>
      intro acc a b
      rw [List.range_zero, List.foldl_nil, if_neg]
      rintro ⟨-, h⟩
      omega
  | succ m ih =>
      intro acc a b
      rw [List.range_succ, List.foldl_append, List.foldl_cons, List.foldl_nil]
      have h2 := diagFold_snd chi nu m acc
      have h1 := ih acc a b
      simp only [setEntryF] at h1 h2 ⊢
      rw [h1, h2]
      by_cases h1 : a = m ∧ b = m
      · obtain ⟨ha, hb⟩ := h1
        subst ha
        subst hb
        rw [if_pos ⟨rfl, rfl⟩, if_pos ⟨rfl, by omega⟩]
      · rw [if_neg h1]
        by_cases h2 : a = b ∧ a < m
        · rw [if_pos h2, if_pos ⟨h2.1, by omega⟩]
        · rw [if_neg h2, if_neg ?_]
          rintro ⟨hab, ham⟩
          rcases Nat.lt_succ_iff_lt_or_eq.mp ham with h | h
          · exact h2 ⟨hab, h⟩
          · exact h1 ⟨h, by omega⟩

lemma offFold_snd (gauss : ℕ → ℝ) (d : ℕ) :
    ∀ (m : ℕ), m ≤ d → ∀ acc : (ℕ → ℕ → ℝ) × ℕ,
      ((List.range m).foldl
        (fun acc2 k => (List.range' (k + 1) (d - (k + 1))).foldl
          (fun acc3 q => (setEntryF acc3.1 k q (gauss acc3.2), acc3.2 + 1)) acc2)
        acc).2
      = acc.2 + offBase d m := by
  intro m
  induction m with
  | zero =>
      intro _ acc
      simp [offBase]
  | succ m ih =>
      intro hm acc
      rw [List.range_succ, List.foldl_append, List.foldl_cons, List.foldl_nil,
        innerFold_snd, ih (by omega) acc]
      unfold offBase
      rw [Finset.sum_range_succ]
      omega

lemma offFold_fst (gauss : ℕ → ℝ) (d : ℕ) :
    ∀ (m : ℕ), m ≤ d → ∀ (acc : (ℕ → ℕ → ℝ) × ℕ) (a b : ℕ),
      ((List.range m).foldl
        (fun acc2 k => (List.range' (k + 1) (d - (k + 1))).foldl
          (fun acc3 q => (setEntryF acc3.1 k q (gauss acc3.2), acc3.2 + 1)) acc2)
        acc).1 a b
      = if a < m ∧ a < b ∧ b < d then gauss (acc.2 + offBase d a + (b - (a + 1)))
        else acc.1 a b := by
  intro m
  induction m with
  | zero =>
      intro _ acc a b
      rw [List.range_zero, List.foldl_nil, if_neg]
      rintro ⟨h, -, -⟩
      omega
  | succ m ih =>
      intro hm acc a b
      rw [List.range_succ, List.foldl_append, List.foldl_cons, List.foldl_nil,
        innerFold_fst, offFold_snd gauss d m (by omega) acc, ih (by omega) acc a b]
      by_cases h1 : a = m ∧ m + 1 ≤ b ∧ b < m + 1 + (d - (m + 1))
      · rw [if_pos h1, if_pos ⟨by omega, by omega, by omega⟩]
        obtain ⟨ha, -, -⟩ := h1
        subst ha
        rfl
      · rw [if_neg h1]
        by_cases h2 : a < m ∧ a < b ∧ b < d
        · rw [if_pos h2, if_pos ⟨by omega, h2.2.1, h2.2.2⟩]
        · rw [if_neg h2, if_neg ?_]
          rintro ⟨ham, hab, hbd⟩
          rcases Nat.lt_succ_iff_lt_or_eq.mp ham with h | h
          · exact h2 ⟨h, hab, hbd⟩
          · exact h1 ⟨h, by omega, by omega⟩

/-- C2: `RandChol` returns (as the trusted, not re-factorized `SetFromU`
payload) the matrix `A · U_V`, where `A` is exactly the Bartlett matrix
of `bartlettA`: diagonal entries `√(χ²(ν−i))` drawn at the first `d`
source positions, strictly-above-diagonal entries standard normal draws
at the following positions (row-major), zeros below; the source advances
by `d` chi-squared draws plus one normal draw per strict upper entry;
and `RandSym` returns the dense reconstruction `U_Xᵀ U_X`. -/
theorem randChol_bartlett (chi : ℝ → ℕ → ℝ) (gauss : ℕ → ℝ) {d : ℕ}
    (w : Wishart d) (s : ℕ) :
    (RandChol chi gauss w s).1.u = bartlettA chi gauss w s * w.upper
    ∧ (RandChol chi gauss w s).2 = s + d + offBase d d
    ∧ (RandSym chi gauss w s).1
        = ((RandChol chi gauss w s).1.u)ᵀ * (RandChol chi gauss w s).1.u
    ∧ (RandSym chi gauss w s).2 = (RandChol chi gauss w s).2 := by
  refine ⟨?_, ?_, rfl, rfl⟩
  · show (Matrix.of fun i j : Fin d =>
        ((List.range d).foldl
          (fun acc2 k => (List.range' (k + 1) (d - (k + 1))).foldl
            (fun acc3 q => (setEntryF acc3.1 k q (gauss acc3.2), acc3.2 + 1)) acc2)
          ((List.range d).foldl
            (fun acc2 k =>
              (setEntryF acc2.1 k k (Real.sqrt (chi (w.nu - k) acc2.2)), acc2.2 + 1))
            ((fun _ _ => (0 : ℝ)), s))).1 i j) * w.upper
      = bartlettA chi gauss w s * w.upper
    congr 1
    funext i j
    rw [Matrix.of_apply, offFold_fst gauss d d le_rfl,
      diagFold_snd chi w.nu d ((fun _ _ => (0 : ℝ)), s),
      diagFold_fst chi w.nu d ((fun _ _ => (0 : ℝ)), s)]
    have hi : (i : ℕ) < d := i.isLt
    have hj : (j : ℕ) < d := j.isLt
    unfold bartlettA
    rw [Matrix.of_apply]
    by_cases hij : (i : ℕ) = (j : ℕ)
    · rw [if_neg (by omega), if_pos ⟨hij, hi⟩, if_pos hij]
    · by_cases hlt : (i : ℕ) < (j : ℕ)
      · rw [if_pos ⟨hi, hlt, hj⟩, if_neg hij, if_pos hlt]
      · rw [if_neg (by omega), if_neg (by omega), if_neg hij, if_neg hlt]
  · show ((List.range d).foldl
        (fun acc2 k => (List.range' (k + 1) (d - (k + 1))).foldl
          (fun acc3 q => (setEntryF acc3.1 k q (gauss acc3.2), acc3.2 + 1)) acc2)
        ((List.range d).foldl
          (fun acc2 k =>
            (setEntryF acc2.1 k k (Real.sqrt (chi (w.nu - k) acc2.2)), acc2.2 + 1))
          ((fun _ _ => (0 : ℝ)), s))).2
      = s + d + offBase d d
    rw [offFold_snd gauss d d le_rfl, diagFold_snd chi w.nu d]

end

end GonumWishart
